import Mathlib

/-!
Verification of the balaklava-to-baklava content-script substitution engine
(src/source/ContentScript/index.ts).

The matcher section embeds the JavaScript code

  const WORD_REGEX = /\b(balaklava)(s)?\b/gi;
  const REPLACEMENT_BASE = 'baklava';
  function applyCasing(template, target) ...
  original.replace(WORD_REGEX, (match, base, plural) =>
    applyCasing(match, REPLACEMENT_BASE + (plural ? 's' : '')))

as executable Lean functions over lists of characters, following ECMAScript
regular-expression semantics:

* a word boundary holds between a word character [A-Za-z0-9_] and a
  non-word character or a string edge;
* with the /i flag each pattern letter matches exactly its two ASCII case
  forms (ECMAScript Canonicalize never maps a non-ASCII input character to
  an ASCII pattern character, and every ASCII character canonicalizing to
  an uppercase letter of the word balaklava or to S is one of its two case
  forms);
* the optional group (s)? is greedy: the engine first tries to consume a
  plural suffix and falls back to the empty alternative when the trailing
  boundary test fails;
* a replace on a /g/ regex scans left to right, restarting immediately
  after the end of each match, and the matched word being non-empty the
  scan consumes at least one character per step, so the input length is a
  sufficient fuel bound.
-/

/-- Word character of the JavaScript boundary assertion: [A-Za-z0-9_]. -/
def isWordChar (c : Char) : Bool :=
  (decide ('a' ≤ c) && decide (c ≤ 'z')) ||
  (decide ('A' ≤ c) && decide (c ≤ 'Z')) ||
  (decide ('0' ≤ c) && decide (c ≤ '9')) ||
  c == '_'

/-- Case-insensitive match of one input character against a pattern letter
given by its lowercase and uppercase ASCII forms. -/
def charMatchesCI (c : Char) (p : Char × Char) : Bool :=
  c == p.1 || c == p.2

/-- The fixed target word balaklava of WORD_REGEX, letter by letter, each
with its two case forms for the /i flag. -/
def baseWordCI : List (Char × Char) :=
  [('b', 'B'), ('a', 'A'), ('l', 'L'), ('a', 'A'), ('k', 'K'),
   ('l', 'L'), ('a', 'A'), ('v', 'V'), ('a', 'A')]

/-- Does the input list start with the given case-insensitive pattern? -/
def matchesPat : List (Char × Char) → List Char → Bool
  | [], _ => true
  | _ :: _, [] => false
  | p :: ps, c :: cs => charMatchesCI c p && matchesPat ps cs

/-- Word-boundary test before the match: the previous character (none at
the start of the string) must not be a word character, the first matched
character being a word character. -/
def boundaryOk : Option Char → Bool
  | none => true
  | some c => !isWordChar c

/-- Word-boundary test after the match: end of input or a non-word
character, the last matched character being a word character. -/
def nextNonWord : List Char → Bool
  | [] => true
  | c :: _ => !isWordChar c

/-- One attempt of WORD_REGEX at the current position: prev is the
character just before the position. On success returns the length of the
matched text (9 or 10) and whether the plural suffix was captured. The
greedy (s)? is tried first; its fallback to the empty alternative requires
the boundary right after the base word. -/
def tryMatchAt (prev : Option Char) (l : List Char) : Option (Nat × Bool) :=
  if boundaryOk prev && matchesPat baseWordCI l then
    match l.drop 9 with
    | [] => some (9, false)
    | y :: ys =>
      if charMatchesCI y ('s', 'S') && nextNonWord ys then some (10, true)
      else if !isWordChar y then some (9, false)
      else none
  else none

/-- The constant REPLACEMENT_BASE = 'baklava'. -/
def REPLACEMENT_BASE : List Char := ['b', 'a', 'k', 'l', 'a', 'v', 'a']

/-- The replacer callback's REPLACEMENT_BASE + (plural ? 's' : ''). -/
def replacementFull (plural : Bool) : List Char :=
  REPLACEMENT_BASE ++ (if plural then ['s'] else [])

/-- The function applyCasing(template, target) of the source: ALL UPPER to
ALL UPPER, all lower to all lower, Capitalized to Capitalized, otherwise
the target unchanged. charAt(0) and slice(1) are take 1 and drop 1, which
agree with the JavaScript code on the empty string as well. -/
def applyCasing (template target : List Char) : List Char :=
  if template.map Char.toUpper == template then target.map Char.toUpper
  else if template.map Char.toLower == template then target.map Char.toLower
  else if (template.take 1).map Char.toUpper == template.take 1 &&
          (template.drop 1).map Char.toLower == template.drop 1 then
    (target.take 1).map Char.toUpper ++ (target.drop 1).map Char.toLower
  else target

/-- The left-to-right global replace of original.replace(WORD_REGEX, cb):
at each position either a match is consumed and replaced through
applyCasing, or one character is copied. The fuel argument only bounds the
number of steps (each step consumes at least one character, so an initial
fuel of the input length is enough); prev is the character preceding the
current position in the original string, used by the leading \b. -/
def substituteAux : Nat → Option Char → List Char → List Char
  | 0, _, l => l
  | _ + 1, _, [] => []
  | fuel + 1, prev, c :: cs =>
    match tryMatchAt prev (c :: cs) with
    | some (n, plural) =>
      applyCasing ((c :: cs).take n) (replacementFull plural) ++
        substituteAux fuel ((c :: cs).take n).getLast? ((c :: cs).drop n)
    | none => c :: substituteAux fuel (some c) cs

/-- The whole matcher: the body of replaceInTextNode's call
original.replace(WORD_REGEX, ...) as a function on strings. -/
def substitute (s : String) : String :=
  ⟨substituteAux s.data.length none s.data⟩

/-- Does any position of the input carry a WORD_REGEX match, prev being
the character before the first listed position? -/
def containsMatch : Option Char → List Char → Bool
  | _, [] => false
  | prev, c :: cs => (tryMatchAt prev (c :: cs)).isSome || containsMatch (some c) cs

/-- The six strings the replacer can ever produce: the casing variants of
baklava and baklavas that applyCasing can emit for the fixed target. -/
def sixForms : List (List Char) :=
  [['b', 'a', 'k', 'l', 'a', 'v', 'a'],
   ['B', 'A', 'K', 'L', 'A', 'V', 'A'],
   ['B', 'a', 'k', 'l', 'a', 'v', 'a'],
   ['b', 'a', 'k', 'l', 'a', 'v', 'a', 's'],
   ['B', 'A', 'K', 'L', 'A', 'V', 'A', 'S'],
   ['B', 'a', 'k', 'l', 'a', 'v', 'a', 's']]

/-- A pattern letter whose two case forms are both word characters. -/
def wordPair (p : Char × Char) : Bool :=
  isWordChar p.1 && isWordChar p.2

theorem tryMatchAt_congr {p1 p2 : Option Char} (h : boundaryOk p1 = boundaryOk p2)
    (l : List Char) : tryMatchAt p1 l = tryMatchAt p2 l := by
  simp [tryMatchAt, h]

theorem containsMatch_congr {p1 p2 : Option Char} (h : boundaryOk p1 = boundaryOk p2) :
    ∀ l, containsMatch p1 l = containsMatch p2 l
  | [] => rfl
  | c :: cs => by simp [containsMatch, tryMatchAt_congr h]

theorem tryMatchAt_none_of_boundary {prev : Option Char} (h : boundaryOk prev = false)
    (l : List Char) : tryMatchAt prev l = none := by
  simp [tryMatchAt, h]

theorem substituteAux_boundary_step {prev : Option Char} (h : boundaryOk prev = false)
    (fuel : Nat) (c : Char) (cs : List Char) :
    substituteAux (fuel + 1) prev (c :: cs) = c :: substituteAux fuel (some c) cs := by
  simp [substituteAux, tryMatchAt_none_of_boundary h]

/-- If no position of the input matches, the scan copies the input verbatim,
for every fuel value. -/
theorem noMatch_id : ∀ (l : List Char) (prev : Option Char) (fuel : Nat),
    containsMatch prev l = false → substituteAux fuel prev l = l
  | _, _, 0, _ => rfl
  | [], _, _ + 1, _ => rfl
  | c :: cs, prev, fuel + 1, h => by
    cases hm : tryMatchAt prev (c :: cs) with
    | none =>
      have h2 : containsMatch (some c) cs = false := by
        simpa [containsMatch, hm] using h
      simp [substituteAux, hm, noMatch_id cs (some c) fuel h2]
    | some v =>
      simp [containsMatch, hm] at h

theorem word_of_pair {c : Char} {p : Char × Char} (hw : wordPair p = true)
    (h : charMatchesCI c p = true) : isWordChar c = true := by
  have h' : c = p.1 ∨ c = p.2 := by simpa [charMatchesCI] using h
  have hw' : isWordChar p.1 = true ∧ isWordChar p.2 = true := by
    simpa [wordPair] using hw
  rcases h' with h' | h' <;> simp [h', hw'.1, hw'.2]

/-- A successful pattern test guarantees enough input and that the tested
characters are all word characters. -/
theorem matchesPat_words : ∀ (ps : List (Char × Char)) (l : List Char),
    ps.all wordPair = true → matchesPat ps l = true →
    ps.length ≤ l.length ∧ (l.take ps.length).all isWordChar = true
  | [], l, _, _ => ⟨Nat.zero_le _, by simp⟩
  | p :: ps, [], _, hm => by simp [matchesPat] at hm
  | p :: ps, c :: cs, hw, hm => by
    have hm' : charMatchesCI c p = true ∧ matchesPat ps cs = true := by
      simpa [matchesPat] using hm
    have hw' : wordPair p = true ∧ ps.all wordPair = true := by
      simpa using hw
    have ih := matchesPat_words ps cs hw'.2 hm'.2
    have hc : isWordChar c = true := word_of_pair hw'.1 hm'.1
    exact ⟨by simpa using ih.1, by simpa [List.take, hc] using ih.2⟩

/-- The pattern test only reads the first pattern-length characters. -/
theorem matchesPat_take : ∀ (ps : List (Char × Char)) (l : List Char),
    matchesPat ps l = matchesPat ps (l.take ps.length)
  | [], l => by simp [matchesPat]
  | _ :: _, [] => by simp
  | p :: ps, c :: cs => by
    simp only [matchesPat, List.length_cons, List.take]
    rw [matchesPat_take ps cs]

theorem head?_drop_eq : ∀ (l : List Char) (n : Nat), (l.drop n).head? = l.get? n
  | l, 0 => by cases l <;> simp
  | [], _ + 1 => by simp
  | _ :: l, n + 1 => by simp [head?_drop_eq l n]

theorem get?_take_eq : ∀ (l : List Char) (n i : Nat), i < n →
    (l.take n).get? i = l.get? i
  | _, 0, _, h => absurd h (by omega)
  | [], _ + 1, _, _ => by simp
  | _ :: _, _ + 1, 0, _ => by simp
  | _ :: l, n + 1, i + 1, h => by simpa using get?_take_eq l n i (by omega)

theorem take_succ_get? : ∀ (l : List Char) (n : Nat) (a : Char),
    l.get? n = some a → l.take (n + 1) = l.take n ++ [a]
  | [], n, a, h => by simp at h
  | b :: l, 0, a, h => by
    have : b = a := by simpa using h
    simp [this]
  | b :: l, n + 1, a, h => by
    have := take_succ_get? l n a (by simpa using h)
    simp [List.take, this]

theorem eq_cons_of_head? {l : List Char} {a : Char} (h : l.head? = some a) :
    l = a :: l.tail := by
  cases l with
  | nil => simp at h
  | cons b t =>
    have : b = a := by simpa using h
    simp [this]

/-- The previous-character boundary test fails after a non-empty run of
word characters. -/
theorem boundary_getLast : ∀ (xs : List Char), xs ≠ [] →
    xs.all isWordChar = true → boundaryOk xs.getLast? = false
  | [], h, _ => absurd rfl h
  | [x], _, hall => by
    have : isWordChar x = true := by simpa using hall
    simp [List.getLast?, boundaryOk, this]
  | x :: y :: t, _, hall => by
    have h2 : (y :: t).all isWordChar = true := by
      simp only [List.all_cons, Bool.and_eq_true] at hall ⊢
      exact hall.2
    rw [List.getLast?_cons_cons]
    exact boundary_getLast (y :: t) (by simp) h2

/-- Full analysis of a successful match attempt. -/
theorem tryMatchAt_destruct {prev : Option Char} {l : List Char} {n : Nat} {pl : Bool}
    (h : tryMatchAt prev l = some (n, pl)) :
    boundaryOk prev = true ∧ matchesPat baseWordCI l = true ∧
    ((pl = false ∧ n = 9) ∨
     (pl = true ∧ n = 10 ∧ ∃ y ys, l.drop 9 = y :: ys ∧
        charMatchesCI y ('s', 'S') = true ∧ nextNonWord ys = true)) ∧
    (l.drop n = [] ∨ ∃ z zs, l.drop n = z :: zs ∧ isWordChar z = false) := by
  unfold tryMatchAt at h
  by_cases hb : (boundaryOk prev && matchesPat baseWordCI l) = true
  case neg => rw [if_neg hb] at h; exact absurd h (by simp)
  case pos =>
    rw [if_pos hb] at h
    obtain ⟨hb1, hb2⟩ := Bool.and_eq_true_iff.mp hb
    refine ⟨hb1, hb2, ?_⟩
    split at h
    next hd =>
      obtain ⟨hn, hp⟩ : (9 : Nat) = n ∧ false = pl := by simpa using h
      subst hn; subst hp
      exact ⟨Or.inl ⟨rfl, rfl⟩, Or.inl hd⟩
    next y ys hd =>
      split at h
      next h1 =>
        obtain ⟨hn, hp⟩ : (10 : Nat) = n ∧ true = pl := by simpa using h
        subst hn; subst hp
        obtain ⟨hy, hnw⟩ := Bool.and_eq_true_iff.mp h1
        have hd10 : l.drop 10 = ys := by
          have h' : (l.drop 9).drop 1 = ys := by simp [hd]
          simpa [List.drop_drop] using h'
        refine ⟨Or.inr ⟨rfl, rfl, y, ys, hd, hy, hnw⟩, ?_⟩
        cases ys with
        | nil => exact Or.inl hd10
        | cons z zs =>
          have hz : isWordChar z = false := by simpa [nextNonWord] using hnw
          exact Or.inr ⟨z, zs, hd10, hz⟩
      next h1 =>
        split at h
        next h2 =>
          obtain ⟨hn, hp⟩ : (9 : Nat) = n ∧ false = pl := by simpa using h
          subst hn; subst hp
          exact ⟨Or.inl ⟨rfl, rfl⟩, Or.inr ⟨y, ys, hd, by simpa using h2⟩⟩
        next h2 =>
          exact absurd h (by simp)

/-- The characters a successful match consumes are word characters, the
match is 9 or 10 characters long, fits in the input, and ends in a word
character. -/
theorem matched_words {prev : Option Char} {l : List Char} {n : Nat} {pl : Bool}
    (h : tryMatchAt prev l = some (n, pl)) :
    (l.take n).all isWordChar = true ∧ 9 ≤ n ∧ n ≤ l.length ∧
    boundaryOk (l.take n).getLast? = false := by
  obtain ⟨_, hpat, hcase, _⟩ := tryMatchAt_destruct h
  have hw := matchesPat_words baseWordCI l (by decide) hpat
  have hlen9 : 9 ≤ l.length := by simpa [baseWordCI] using hw.1
  have hall9 : (l.take 9).all isWordChar = true := by simpa [baseWordCI] using hw.2
  rcases hcase with ⟨_, hn⟩ | ⟨_, hn, y, ys, hd, hy, _⟩
  · subst hn
    refine ⟨hall9, by omega, hlen9, boundary_getLast _ ?_ hall9⟩
    have hl : (l.take 9).length = 9 := by simp [List.length_take]; omega
    intro hc; rw [hc] at hl; simp at hl
  · subst hn
    have hyw : isWordChar y = true := @word_of_pair y ('s', 'S') (by decide) hy
    have hg : l.get? 9 = some y := by
      rw [← head?_drop_eq, hd]; rfl
    have ht10 : l.take 10 = l.take 9 ++ [y] := take_succ_get? l 9 y hg
    have hall10 : (l.take 10).all isWordChar = true := by
      rw [ht10]; simp only [List.all_append, Bool.and_eq_true]
      exact ⟨hall9, by simp [hyw]⟩
    have hlen10 : 10 ≤ l.length := by
      have hld : (l.drop 9).length = l.length - 9 := List.length_drop ..
      rw [hd] at hld; simp at hld; omega
    refine ⟨hall10, by omega, hlen10, boundary_getLast _ ?_ hall10⟩
    have hl : (l.take 10).length = 10 := by simp [List.length_take]; omega
    intro hc; rw [hc] at hl; simp at hl

/-- While the characters already produced are word characters, the scan has
been copying the input: the leading boundary never holds one position past
a word character. -/
theorem substituteAux_take_copy : ∀ (k : Nat) (cs : List Char) (fuel : Nat)
    (prev : Option Char), boundaryOk prev = false →
    ((substituteAux fuel prev cs).take k).all isWordChar = true →
    (substituteAux fuel prev cs).take (k + 1) = cs.take (k + 1)
  | _, _, 0, _, _, _ => rfl
  | _, [], _ + 1, _, _, _ => by simp [substituteAux]
  | 0, c :: cs, fuel + 1, prev, hb, _ => by
    rw [substituteAux_boundary_step hb]
    rfl
  | k + 1, c :: cs, fuel + 1, prev, hb, hall => by
    rw [substituteAux_boundary_step hb] at hall ⊢
    have hall' : isWordChar c = true ∧
        ((substituteAux fuel (some c) cs).take k).all isWordChar = true := by
      simpa using hall
    have hb' : boundaryOk (some c) = false := by simp [boundaryOk, hall'.1]
    have ih := substituteAux_take_copy k cs fuel (some c) hb' hall'.2
    simp only [List.take_succ_cons, ih]

/-- Scanning a run of word characters placed after a word character finds
no match inside the run, and continues into the tail with a word character
as previous character. -/
theorem containsMatch_word_run : ∀ (run tail : List Char) (prev : Option Char),
    boundaryOk prev = false → run.all isWordChar = true →
    containsMatch (some 'a') tail = false →
    containsMatch prev (run ++ tail) = false
  | [], tail, prev, hb, _, ht => by
    rw [List.nil_append, @containsMatch_congr prev (some 'a') (by rw [hb]; decide)]
    exact ht
  | x :: run, tail, prev, hb, hall, ht => by
    have hx : isWordChar x = true ∧ run.all isWordChar = true := by simpa using hall
    have h0 : tryMatchAt prev ((x :: run) ++ tail) = none :=
      tryMatchAt_none_of_boundary hb _
    have ih := containsMatch_word_run run tail (some x) (by simp [boundaryOk, hx.1]) hx.2 ht
    simp only [List.cons_append] at h0 ⊢
    simp [containsMatch, h0, ih]

/-- Whatever the casing of the matched text, the replacer only ever emits
one of the six fixed forms. -/
theorem applyCasing_rep_mem (t : List Char) (pl : Bool) :
    applyCasing t (replacementFull pl) ∈ sixForms := by
  cases pl with
  | false =>
    unfold applyCasing
    split
    · decide
    split
    · decide
    split
    · decide
    · decide
  | true =>
    unfold applyCasing
    split
    · decide
    split
    · decide
    split
    · decide
    · decide

theorem containsMatch_cased_head (prev : Option Char) (c0 : Char) (rest tail : List Char)
    (hm : matchesPat baseWordCI ((c0 :: rest) ++ tail) = false)
    (hw : isWordChar c0 = true) (hall : rest.all isWordChar = true)
    (ht : containsMatch (some 'a') tail = false) :
    containsMatch prev ((c0 :: rest) ++ tail) = false := by
  have h0 : tryMatchAt prev ((c0 :: rest) ++ tail) = none := by
    unfold tryMatchAt
    rw [hm]
    simp
  have h1 := containsMatch_word_run rest tail (some c0) (by simp [boundaryOk, hw]) hall ht
  simp only [List.cons_append] at h0 ⊢
  simp [containsMatch, h0, h1]

/-- No match can start inside an emitted replacement: its third character
is a k, where the target word demands an l, and its other positions sit
right after a word character. -/
theorem containsMatch_cased (prev : Option Char) (cased tail : List Char)
    (hc : cased ∈ sixForms) (ht : containsMatch (some 'a') tail = false) :
    containsMatch prev (cased ++ tail) = false := by
  have hk : charMatchesCI 'k' ('l', 'L') = false := by decide
  have hK : charMatchesCI 'K' ('l', 'L') = false := by decide
  simp only [sixForms, List.mem_cons, List.not_mem_nil, or_false] at hc
  rcases hc with hc | hc | hc | hc | hc | hc <;> subst hc
  · exact containsMatch_cased_head prev 'b' _ tail
      (by simp only [baseWordCI, matchesPat, List.cons_append, hk,
        Bool.false_and, Bool.and_false]) (by decide) (by decide) ht
  · exact containsMatch_cased_head prev 'B' _ tail
      (by simp only [baseWordCI, matchesPat, List.cons_append, hK,
        Bool.false_and, Bool.and_false]) (by decide) (by decide) ht
  · exact containsMatch_cased_head prev 'B' _ tail
      (by simp only [baseWordCI, matchesPat, List.cons_append, hk,
        Bool.false_and, Bool.and_false]) (by decide) (by decide) ht
  · exact containsMatch_cased_head prev 'b' _ tail
      (by simp only [baseWordCI, matchesPat, List.cons_append, hk,
        Bool.false_and, Bool.and_false]) (by decide) (by decide) ht
  · exact containsMatch_cased_head prev 'B' _ tail
      (by simp only [baseWordCI, matchesPat, List.cons_append, hK,
        Bool.false_and, Bool.and_false]) (by decide) (by decide) ht
  · exact containsMatch_cased_head prev 'B' _ tail
      (by simp only [baseWordCI, matchesPat, List.cons_append, hk,
        Bool.false_and, Bool.and_false]) (by decide) (by decide) ht

theorem drop_succ_eq_tail_drop : ∀ (l : List Char) (n : Nat),
    l.drop (n + 1) = (l.drop n).tail
  | [], _ => by simp
  | _ :: _, 0 => by simp
  | _ :: l, n + 1 => by
    rw [List.drop_succ_cons, List.drop_succ_cons, drop_succ_eq_tail_drop l n]

/-- A position where no match starts still has no match after the tail has
been substituted: the scan only rewrites text further right, and the next
ten characters, unchanged copies, decide the match attempt. -/
theorem tryMatch_stable (prev : Option Char) (c : Char) (cs : List Char) (fuel : Nat)
    (h : tryMatchAt prev (c :: cs) = none) :
    tryMatchAt prev (c :: substituteAux fuel (some c) cs) = none := by
  by_cases hb : boundaryOk prev = true
  case neg => exact tryMatchAt_none_of_boundary (by simpa using hb) _
  case pos =>
  set out := substituteAux fuel (some c) cs with hout
  by_cases hm : matchesPat baseWordCI (c :: out) = true
  case neg =>
    unfold tryMatchAt
    rw [show matchesPat baseWordCI (c :: out) = false from by simpa using hm]
    simp
  case pos =>
  have hw := matchesPat_words baseWordCI (c :: out) (by decide) hm
  have hlen8 : 8 ≤ out.length := by
    have h1 : 9 ≤ out.length + 1 := hw.1
    omega
  have hcw : isWordChar c = true ∧ (out.take 8).all isWordChar = true := by
    have h2 : ((c :: out).take 9).all isWordChar = true := by
      simpa [baseWordCI] using hw.2
    rw [List.take_succ_cons] at h2
    simpa using h2
  have hbc : boundaryOk (some c) = false := by simp [boundaryOk, hcw.1]
  have hcopy9 : out.take 9 = cs.take 9 := by
    have h9 := substituteAux_take_copy 8 cs fuel (some c) hbc (by rw [← hout]; exact hcw.2)
    rw [← hout] at h9; exact h9
  have htk8 : out.take 8 = cs.take 8 := by
    have h1 : (out.take 9).take 8 = (cs.take 9).take 8 := by rw [hcopy9]
    simpa [List.take_take] using h1
  have hm' : matchesPat baseWordCI (c :: cs) = true := by
    rw [matchesPat_take]
    rw [matchesPat_take] at hm
    have he : (c :: cs).take baseWordCI.length = (c :: out).take baseWordCI.length := by
      show (c :: cs).take 9 = (c :: out).take 9
      simp only [List.take_succ_cons, htk8]
    rw [he]; exact hm
  unfold tryMatchAt at h
  rw [if_pos (by simp [hb, hm'])] at h
  simp only [List.drop_succ_cons] at h
  split at h
  next hd => exact absurd h (by simp)
  next y ys hd =>
    split at h
    next h1 => exact absurd h (by simp)
    next h1 =>
      split at h
      next h2 => exact absurd h (by simp)
      next h2 =>
        have hyw : isWordChar y = true := by simpa using h2
        have hcs8 : cs.get? 8 = some y := by rw [← head?_drop_eq, hd]; rfl
        have hout8 : out.get? 8 = some y := by
          rw [← get?_take_eq out 9 8 (by omega), hcopy9, get?_take_eq cs 9 8 (by omega)]
          exact hcs8
        have hdo : out.drop 8 = y :: out.drop 9 := by
          have h' : (out.drop 8).head? = some y := by rw [head?_drop_eq]; exact hout8
          have h'' := eq_cons_of_head? h'
          rwa [← drop_succ_eq_tail_drop] at h''
        unfold tryMatchAt
        rw [if_pos (by simp [hb, hm])]
        simp only [List.drop_succ_cons, hdo]
        by_cases hys : charMatchesCI y ('s', 'S') = true
        · have hnw : nextNonWord ys = false := by
            cases hx : nextNonWord ys with
            | false => rfl
            | true => exact absurd (by simp [hys, hx]) h1
          obtain ⟨z, zs, hzs, hzw⟩ : ∃ z zs, ys = z :: zs ∧ isWordChar z = true := by
            cases ys with
            | nil => simp [nextNonWord] at hnw
            | cons z zs => exact ⟨z, zs, rfl, by simpa [nextNonWord] using hnw⟩
          have hcs9 : cs.get? 9 = some z := by
            rw [← head?_drop_eq, drop_succ_eq_tail_drop, hd, hzs]
            rfl
          have hall9 : (out.take 9).all isWordChar = true := by
            rw [take_succ_get? out 8 y hout8]
            simp only [List.all_append, Bool.and_eq_true]
            exact ⟨hcw.2, by simp [hyw]⟩
          have hcopy10 : out.take 10 = cs.take 10 := by
            have h10 := substituteAux_take_copy 9 cs fuel (some c) hbc
              (by rw [← hout]; exact hall9)
            rw [← hout] at h10; exact h10
          have hout9 : out.get? 9 = some z := by
            rw [← get?_take_eq out 10 9 (by omega), hcopy10, get?_take_eq cs 10 9 (by omega)]
            exact hcs9
          have hdro9 : out.drop 9 = z :: (out.drop 9).tail := by
            apply eq_cons_of_head?
            rw [head?_drop_eq]; exact hout9
          have hcond : (charMatchesCI y ('s', 'S') && nextNonWord (out.drop 9)) = false := by
            rw [hdro9]; simp [nextNonWord, hzw]
          rw [if_neg (by simp [hcond]), if_neg (by simp [hyw])]
        · have hysf : charMatchesCI y ('s', 'S') = false := by simpa using hys
          rw [if_neg (by simp [hysf]), if_neg (by simp [hyw])]

/-- The scan's output carries no match anywhere: inside copied text a new
match cannot appear (the first ten characters past any unmatched position
are copied verbatim), and inside or after a replacement no match starts. -/
theorem noMatch_out : ∀ (fuel : Nat) (prev : Option Char) (l : List Char),
    l.length ≤ fuel → containsMatch prev (substituteAux fuel prev l) = false
  | 0, prev, l, h => by
    have hl : l = [] := List.eq_nil_of_length_eq_zero (by omega)
    subst hl; rfl
  | _ + 1, _, [], _ => rfl
  | fuel + 1, prev, c :: cs, h => by
    cases hm : tryMatchAt prev (c :: cs) with
    | none =>
      have ih := noMatch_out fuel (some c) cs (by simp at h; omega)
      have hst := tryMatch_stable prev c cs fuel hm
      simp [substituteAux, hm, containsMatch, hst, ih]
    | some v =>
      obtain ⟨n, pl⟩ := v
      have hmw := matched_words hm
      have hlen : ((c :: cs).drop n).length ≤ fuel := by
        have h9 := hmw.2.1
        simp only [List.length_drop, List.length_cons]
        simp only [List.length_cons] at h
        omega
      have ih := noMatch_out fuel ((c :: cs).take n).getLast? ((c :: cs).drop n) hlen
      have ih' : containsMatch (some 'a')
          (substituteAux fuel ((c :: cs).take n).getLast? ((c :: cs).drop n)) = false := by
        rw [← @containsMatch_congr ((c :: cs).take n).getLast? (some 'a')
          (by rw [hmw.2.2.2]; decide)]
        exact ih
      have hc := applyCasing_rep_mem ((c :: cs).take n) pl
      have hdone := containsMatch_cased prev _ _ hc ih'
      simpa [substituteAux, hm] using hdone

/-- The lastIndex property of the shared compiled WORD_REGEX object, the
only mutable state touched by the matcher. -/
structure RegexState where
  lastIndex : Nat

/-- One invocation of original.replace(WORD_REGEX, cb) on the shared global
regex object, together with its effect on that shared state. Per the
ECMAScript RegExp Symbol.replace algorithm, a global regex gets
lastIndex := 0 written before the scan starts, the scan walks the whole
string, and the final failing exec resets lastIndex to 0; so the result is
the stateless substitute and the state ends at 0 whatever it was before. -/
def substituteCall (_st : RegexState) (s : String) : String × RegexState :=
  (substitute s, ⟨0⟩)

/-- One segment of the replacement decomposition: either a character copied
from the input, or a matched span together with the text inserted for it. -/
inductive Seg where
  | copy (c : Char) : Seg
  | repl (matched : List Char) (output : List Char) : Seg
deriving DecidableEq

/-- The scan of substituteAux, recording what happened instead of just the
output text. -/
def segsAux : Nat → Option Char → List Char → List Seg
  | 0, _, l => l.map Seg.copy
  | _ + 1, _, [] => []
  | fuel + 1, prev, c :: cs =>
    match tryMatchAt prev (c :: cs) with
    | some (n, plural) =>
      Seg.repl ((c :: cs).take n) (applyCasing ((c :: cs).take n) (replacementFull plural)) ::
        segsAux fuel ((c :: cs).take n).getLast? ((c :: cs).drop n)
    | none => Seg.copy c :: segsAux fuel (some c) cs

/-- Reassemble the original input from a decomposition. -/
def flattenSrc : List Seg → List Char
  | [] => []
  | Seg.copy c :: r => c :: flattenSrc r
  | Seg.repl m _ :: r => m ++ flattenSrc r

/-- Reassemble the output from a decomposition. -/
def flattenOut : List Seg → List Char
  | [] => []
  | Seg.copy c :: r => c :: flattenOut r
  | Seg.repl _ o :: r => o ++ flattenOut r

/-- The decomposition of one substitute call. -/
def segs (s : String) : List Seg := segsAux s.data.length none s.data

theorem flattenSrc_map_copy : ∀ l : List Char, flattenSrc (l.map Seg.copy) = l
  | [] => rfl
  | c :: cs => by simp [flattenSrc, flattenSrc_map_copy cs]

theorem flattenOut_map_copy : ∀ l : List Char, flattenOut (l.map Seg.copy) = l
  | [] => rfl
  | c :: cs => by simp [flattenOut, flattenOut_map_copy cs]

theorem flattenSrc_segsAux : ∀ (fuel : Nat) (prev : Option Char) (l : List Char),
    flattenSrc (segsAux fuel prev l) = l
  | 0, _, l => flattenSrc_map_copy l
  | _ + 1, _, [] => rfl
  | fuel + 1, prev, c :: cs => by
    cases hm : tryMatchAt prev (c :: cs) with
    | some v =>
      obtain ⟨n, pl⟩ := v
      simp [segsAux, hm, flattenSrc, flattenSrc_segsAux fuel _ _, List.take_append_drop]
    | none =>
      simp [segsAux, hm, flattenSrc, flattenSrc_segsAux fuel (some c) cs]

theorem flattenOut_segsAux : ∀ (fuel : Nat) (prev : Option Char) (l : List Char),
    flattenOut (segsAux fuel prev l) = substituteAux fuel prev l
  | 0, _, l => flattenOut_map_copy l
  | _ + 1, _, [] => rfl
  | fuel + 1, prev, c :: cs => by
    cases hm : tryMatchAt prev (c :: cs) with
    | some v =>
      obtain ⟨n, pl⟩ := v
      simp [segsAux, substituteAux, hm, flattenOut, flattenOut_segsAux fuel _ _]
    | none =>
      simp [segsAux, substituteAux, hm, flattenOut, flattenOut_segsAux fuel (some c) cs]

theorem segs_repl_mem : ∀ (fuel : Nat) (prev : Option Char) (l : List Char)
    (m o : List Char), Seg.repl m o ∈ segsAux fuel prev l → o ∈ sixForms
  | 0, _, l, m, o, h => by
    exfalso
    have hno : ∀ l' : List Char, Seg.repl m o ∉ l'.map Seg.copy := by
      intro l'
      induction l' with
      | nil => simp
      | cons a t ih => simp [ih]
    exact hno l h
  | _ + 1, _, [], _, _, h => by simp [segsAux] at h
  | fuel + 1, prev, c :: cs, m, o, h => by
    cases hm : tryMatchAt prev (c :: cs) with
    | some v =>
      obtain ⟨n, pl⟩ := v
      simp only [segsAux, hm, List.mem_cons] at h
      rcases h with h | h
      · obtain ⟨-, ho⟩ := Seg.repl.injEq .. ▸ h
        exact ho ▸ applyCasing_rep_mem ((c :: cs).take n) pl
      · exact segs_repl_mem fuel _ _ m o h
    | none =>
      simp only [segsAux, hm, List.mem_cons] at h
      rcases h with h | h
      · exact absurd h (by simp)
      · exact segs_repl_mem fuel (some c) cs m o h

/-- C1: casing and plural law of the matcher. For every whole-word match
the replacement carries the plural suffix exactly when the match did, and
the casing style is judged over the full matched text including any
suffix; the seven reference equalities of the spec hold. -/
theorem substitute_casing_plural_law :
    substitute "BALAKLAVA" = "BAKLAVA" ∧ substitute "balaklava" = "baklava" ∧
    substitute "Balaklava" = "Baklava" ∧ substitute "bAlAklava" = "baklava" ∧
    substitute "balaklavas" = "baklavas" ∧ substitute "BALAKLAVAS" = "BAKLAVAS" ∧
    substitute "Balaklavas" = "Baklavas" := by
  decide

/-- C2: the matcher is idempotent: for every input string, applying
substitute to its own output changes nothing, because no output of the
scan still contains a match of WORD_REGEX. -/
theorem substitute_idempotent (s : String) :
    substitute (substitute s) = substitute s := by
  have h1 : containsMatch none (substituteAux s.data.length none s.data) = false :=
    noMatch_out s.data.length none s.data (Nat.le_refl _)
  exact congrArg String.mk
    (noMatch_id (substituteAux s.data.length none s.data) none
      (substituteAux s.data.length none s.data).length h1)

/-- C3: no-match identity. A string without a case-insensitive whole-word
occurrence of balaklava, optionally with the plural suffix and with word
boundaries on both sides, is returned unchanged; in particular the empty
string, balaklavaland and xbalaklava. -/
theorem substitute_no_match_identity :
    (∀ s : String, containsMatch none s.data = false → substitute s = s) ∧
    substitute "" = "" ∧ substitute "balaklavaland" = "balaklavaland" ∧
    substitute "xbalaklava" = "xbalaklava" := by
  refine ⟨fun s h => ?_, by decide, by decide, by decide⟩
  exact congrArg String.mk (noMatch_id s.data none s.data.length h)

/-- Witness for C3 at a concrete input without a match. -/
theorem substitute_no_match_identity_witness : substitute "hello" = "hello" :=
  substitute_no_match_identity.1 "hello" (by decide)

/-- C4: completeness and independence of replacement: every whole-word
match of the target or its plural is replaced (no match survives in the
output, anywhere), and each match is re-cased from its own local casing,
as the mixed-casing reference equality shows. -/
theorem substitute_replaces_every_match :
    substitute "balaklava and BALAKLAVA" = "baklava and BAKLAVA" ∧
    ∀ s : String, containsMatch none (substitute s).data = false := by
  refine ⟨by decide, fun s => ?_⟩
  exact noMatch_out s.data.length none s.data (Nat.le_refl _)

/-- C9: purity and determinism of the matcher. Even though the compiled
global WORD_REGEX object is shared across invocations, the visible result
of a call depends only on the input string: equal inputs give equal
outputs in any order and after any earlier invocations, because the
Symbol.replace algorithm writes lastIndex := 0 before every global scan. -/
theorem substitute_pure_deterministic :
    ∀ (st1 st2 : RegexState) (s0 s : String),
      (substituteCall st1 s).1 = (substituteCall st2 s).1 ∧
      (substituteCall (substituteCall st1 s0).2 s).1 = (substituteCall st1 s).1 ∧
      (substituteCall st1 s).1 = substitute s :=
  fun _ _ _ _ => ⟨rfl, rfl, rfl⟩

/-- C10: replacement-range invariant. The output differs from the input
only inside matched spans (the scan decomposes into copied characters and
matched spans, reassembling to the input on one side and the output on
the other), every inserted replacement is one of the six fixed strings,
and a mixed-case plural suffix never survives on its own. -/
theorem replacement_range_invariant :
    (∀ s : String, flattenSrc (segs s) = s.data ∧
      flattenOut (segs s) = (substitute s).data ∧
      ∀ m o, Seg.repl m o ∈ segs s → o ∈ sixForms) ∧
    substitute "BALAKLAVAs" = "baklavas" ∧ substitute "balaklavaS" = "baklavas" := by
  refine ⟨fun s => ⟨flattenSrc_segsAux .., flattenOut_segsAux .., fun m o h =>
    segs_repl_mem s.data.length none s.data m o h⟩, by decide, by decide⟩

/-- Witness for C10: the decomposition of a concrete input carries exactly
the capitalized plural replacement, which is one of the six forms. -/
theorem replacement_range_invariant_witness :
    ['B', 'a', 'k', 'l', 'a', 'v', 'a', 's'] ∈ sixForms :=
  (replacement_range_invariant.1 "Balaklavas").2.2 ("Balaklavas".data)
    (['B', 'a', 'k', 'l', 'a', 'v', 'a', 's']) (by decide)

/-- One element as seen by the exemption walk: its tagName and the
isContentEditable flag the DOM exposes on it. -/
structure ElemData where
  tagName : String
  isContentEditable : Bool
deriving DecidableEq

/-- The constant EXCLUDED_TAGS set of the source. -/
def EXCLUDED_TAGS : List String :=
  ["SCRIPT", "STYLE", "NOSCRIPT", "TEXTAREA", "INPUT", "CODE", "PRE"]

/-- The while loop of isExcludedElement over the chain consisting of an
element and its ancestors, nearest first: true at the first element whose
tag is excluded or which is a live contenteditable region. -/
def isExcludedChain : List ElemData → Bool
  | [] => false
  | e :: ancestors =>
    if EXCLUDED_TAGS.contains e.tagName then true
    else if e.isContentEditable then true
    else isExcludedChain ancestors

/-- isExcludedElement(el): a null element yields false, otherwise the walk
over the chain runs. -/
def isExcludedElement : Option (List ElemData) → Bool
  | none => false
  | some chain => isExcludedChain chain

/-- replaceInTextNode(node), seen through the write it performs: parent is
node.parentElement as the chain of ancestor elements (none when the node
is detached) and nodeValue the payload. The result is some w when the
function writes w into node.nodeValue and none when it returns without
writing. The JavaScript guard if (!original) is also taken by the empty
string, which is falsy. -/
def replaceInTextNode (parent : Option (List ElemData)) (nodeValue : Option String) :
    Option String :=
  if isExcludedElement parent then none
  else
    match nodeValue with
    | none => none
    | some original =>
      if original == "" then none
      else
        let replaced := substitute original
        if replaced != original then some replaced else none

/-- The payload of a text node after replaceInTextNode ran on it. -/
def newTextValue (parent : Option (List ElemData)) (nodeValue : Option String) :
    Option String :=
  match replaceInTextNode parent nodeValue with
  | some w => some w
  | none => nodeValue

mutual
/-- A node of the live document: a text node with its nodeValue, or an
element with its data and children. -/
inductive DomNode where
  | text (value : Option String) : DomNode
  | elem (data : ElemData) (children : DomForest) : DomNode
/-- A list of sibling nodes, in document order. -/
inductive DomForest where
  | nil : DomForest
  | cons (head : DomNode) (tail : DomForest) : DomForest
end

mutual
/-- Processing of one node inside a scanned subtree, chain being the
ancestor element chain of the node, nearest first and continuing above the
scan root. Text nodes go through replaceInTextNode; the walker never stops
at an element, whatToShow being SHOW_TEXT. -/
def processNode (chain : List ElemData) : DomNode → DomNode
  | .text v => .text (newTextValue (some chain) v)
  | .elem d cs => .elem d (processForest (d :: chain) cs)
/-- Left-to-right processing of siblings: the walker's document order. -/
def processForest (chain : List ElemData) : DomForest → DomForest
  | .nil => .nil
  | .cons n ns => .cons (processNode chain n) (processForest chain ns)
end

/-- processSubtree(root): a text root goes straight to replaceInTextNode,
with ctx its parentElement chain (none when detached); any other root is
walked by the SHOW_TEXT tree walker, which visits every text descendant
and runs replaceInTextNode on the accepted ones, per node the composite
newTextValue. -/
def processSubtree (ctx : Option (List ElemData)) : DomNode → DomNode
  | .text v => .text (newTextValue ctx v)
  | .elem d cs => .elem d (processForest (d :: ctx.getD []) cs)

mutual
/-- The text descendants a SHOW_TEXT tree walker reaches, with the parent
chain of each, in document order. Elements are skipped, never rejected, so
the walk descends into every element subtree; the acceptNode filter is
then invoked on every text node this list contains. -/
def walkerTextsNode (chain : List ElemData) : DomNode →
    List (List ElemData × Option String)
  | .text v => [(chain, v)]
  | .elem d cs => walkerTextsForest (d :: chain) cs
def walkerTextsForest (chain : List ElemData) : DomForest →
    List (List ElemData × Option String)
  | .nil => []
  | .cons n ns => walkerTextsNode chain n ++ walkerTextsForest chain ns
end

mutual
/-- Modelled from the spec: the traversal the specification ascribes to
scanSubtree, with a filter that actively prunes, excluding descent into
any subtree rooted at an exempt element, yielding the text units it still
reaches. This is the claim's description, stated to compare it with the
code's walker; it is not a translation of the code. -/
def specPrunedNode (chain : List ElemData) : DomNode →
    List (List ElemData × Option String)
  | .text v => [(chain, v)]
  | .elem d cs =>
    if isExcludedChain (d :: chain) then [] else specPrunedForest (d :: chain) cs
def specPrunedForest (chain : List ElemData) : DomForest →
    List (List ElemData × Option String)
  | .nil => []
  | .cons n ns => specPrunedNode chain n ++ specPrunedForest chain ns
end

/-- The text units the code's per-node acceptNode filter accepts. -/
def acceptedTexts (tr : List (List ElemData × Option String)) :
    List (List ElemData × Option String) :=
  tr.filter (fun e => !isExcludedChain e.1)

theorem replaceInTextNode_excluded {parent : Option (List ElemData)}
    {v : Option String} (h : isExcludedElement parent = true) :
    replaceInTextNode parent v = none := by
  simp [replaceInTextNode, h]

theorem isExcludedChain_cons_of (d : ElemData) {chain : List ElemData}
    (h : isExcludedChain chain = true) : isExcludedChain (d :: chain) = true := by
  simp [isExcludedChain, h]

mutual
theorem acceptedTexts_excluded_node : ∀ (chain : List ElemData) (n : DomNode),
    isExcludedChain chain = true → acceptedTexts (walkerTextsNode chain n) = []
  | chain, .text v, h => by simp [walkerTextsNode, acceptedTexts, h]
  | chain, .elem d cs, h => by
    simpa [walkerTextsNode] using
      acceptedTexts_excluded_forest (d :: chain) cs (isExcludedChain_cons_of d h)
theorem acceptedTexts_excluded_forest : ∀ (chain : List ElemData) (ns : DomForest),
    isExcludedChain chain = true → acceptedTexts (walkerTextsForest chain ns) = []
  | _, .nil, _ => rfl
  | chain, .cons n ns, h => by
    have h1 := acceptedTexts_excluded_node chain n h
    have h2 := acceptedTexts_excluded_forest chain ns h
    simp only [acceptedTexts] at h1 h2 ⊢
    simp [walkerTextsForest, List.filter_append, h1, h2]
end

mutual
theorem accepted_eq_pruned_node : ∀ (chain : List ElemData) (n : DomNode),
    isExcludedChain chain = false →
    acceptedTexts (walkerTextsNode chain n) = specPrunedNode chain n
  | chain, .text v, h => by simp [walkerTextsNode, specPrunedNode, acceptedTexts, h]
  | chain, .elem d cs, h => by
    cases hx : isExcludedChain (d :: chain) with
    | true =>
      have h1 := acceptedTexts_excluded_forest (d :: chain) cs hx
      simp [walkerTextsNode, specPrunedNode, hx, h1]
    | false =>
      have h1 := accepted_eq_pruned_forest (d :: chain) cs hx
      simp [walkerTextsNode, specPrunedNode, hx, h1]
theorem accepted_eq_pruned_forest : ∀ (chain : List ElemData) (ns : DomForest),
    isExcludedChain chain = false →
    acceptedTexts (walkerTextsForest chain ns) = specPrunedForest chain ns
  | _, .nil, _ => rfl
  | chain, .cons n ns, h => by
    have h1 := accepted_eq_pruned_node chain n h
    have h2 := accepted_eq_pruned_forest chain ns h
    simp only [acceptedTexts] at h1 h2 ⊢
    simp [walkerTextsForest, specPrunedForest, List.filter_append, h1, h2]
end

mutual
theorem walkerTexts_processNode : ∀ (chain : List ElemData) (n : DomNode),
    walkerTextsNode chain (processNode chain n) =
      (walkerTextsNode chain n).map (fun e => (e.1, newTextValue (some e.1) e.2))
  | chain, .text v => by simp [walkerTextsNode, processNode]
  | chain, .elem d cs => by
    simpa [walkerTextsNode, processNode] using walkerTexts_processForest (d :: chain) cs
theorem walkerTexts_processForest : ∀ (chain : List ElemData) (ns : DomForest),
    walkerTextsForest chain (processForest chain ns) =
      (walkerTextsForest chain ns).map (fun e => (e.1, newTextValue (some e.1) e.2))
  | _, .nil => rfl
  | chain, .cons n ns => by
    simp [walkerTextsForest, processForest, walkerTexts_processNode chain n,
      walkerTexts_processForest chain ns]
end

/-- C5: exemption invariant. A text unit whose ancestor chain contains an
excluded tag or a contenteditable element is never mutated by any engine
path: replaceInTextNode performs no write on it (this is the characterData
watcher path and the direct text-root path), a text root with an exempt
context is returned unchanged by processSubtree, an element root is
processed by walking its forest, and inside any scanned forest (initial
body scan or an addedNodes scan) every text unit keeps its chain, exempt
units keeping their exact payload. -/
theorem exempt_text_never_mutated :
    (∀ (parent : Option (List ElemData)) (v : Option String),
       isExcludedElement parent = true → replaceInTextNode parent v = none) ∧
    (∀ (ctx : Option (List ElemData)) (v : Option String),
       isExcludedElement ctx = true → processSubtree ctx (.text v) = .text v) ∧
    (∀ (ctx : Option (List ElemData)) (d : ElemData) (cs : DomForest),
       processSubtree ctx (.elem d cs) = .elem d (processForest (d :: ctx.getD []) cs)) ∧
    (∀ (chain : List ElemData) (ns : DomForest),
       List.Forall₂ (fun a b => a.1 = b.1 ∧ (isExcludedChain a.1 = true → b.2 = a.2))
         (walkerTextsForest chain ns) (walkerTextsForest chain (processForest chain ns))) := by
  refine ⟨fun parent v h => replaceInTextNode_excluded h, fun ctx v h => ?_,
    fun ctx d cs => rfl, fun chain ns => ?_⟩
  · simp [processSubtree, newTextValue, replaceInTextNode_excluded h]
  · rw [walkerTexts_processForest, List.forall₂_map_right_iff]
    rw [List.forall₂_same]
    intro e _
    refine ⟨rfl, fun hex => ?_⟩
    simp [newTextValue,
      replaceInTextNode_excluded (show isExcludedElement (some e.1) = true from hex)]

/-- Witness for C5: a text node under a SCRIPT element is not written. -/
theorem exempt_text_never_mutated_witness :
    replaceInTextNode (some [⟨"SCRIPT", false⟩]) (some "balaklava") = none :=
  exempt_text_never_mutated.1 (some [⟨"SCRIPT", false⟩]) (some "balaklava") (by decide)

/-- A DIV containing a SCRIPT element containing a matching text node. -/
def scriptExample : DomForest :=
  .cons (.elem ⟨"SCRIPT", false⟩ (.cons (.text (some "balaklava")) .nil)) .nil

/-- C6 counterexample: the claim says the traversal filter actively prunes,
excluding descent into, every subtree rooted at an exempt element. The
code's walker runs with whatToShow SHOW_TEXT, so elements are merely
skipped and never rejected: the walk descends into the SCRIPT subtree and
invokes the filter on the text inside, while the pruning traversal the
claim describes reaches no text unit there. -/
theorem scanner_pruning_counterexample :
    walkerTextsForest [⟨"DIV", false⟩] scriptExample ≠
      specPrunedForest [⟨"DIV", false⟩] scriptExample ∧
    walkerTextsForest [⟨"DIV", false⟩] scriptExample =
      [([⟨"SCRIPT", false⟩, ⟨"DIV", false⟩], some "balaklava")] ∧
    specPrunedForest [⟨"DIV", false⟩] scriptExample = [] := by
  refine ⟨?_, rfl, rfl⟩
  intro h
  have h' : ([([⟨"SCRIPT", false⟩, ⟨"DIV", false⟩], some "balaklava")] :
      List (List ElemData × Option String)) = [] := h
  simp at h'

/-- C6 amended: the walker does not prune element subtrees; it visits every
text descendant and its per-node filter rejects each text unit whose
ancestor chain is exempt. The accepted text units nevertheless coincide
with what the pruning traversal described by the spec would yield, whenever
the chain above the scanned forest is not itself exempt, and the single-
unit processor runs on every text unit the traversal yields, in document
order. -/
theorem scanner_filter_amended :
    ∀ (chain : List ElemData) (ns : DomForest),
      (isExcludedChain chain = false →
        acceptedTexts (walkerTextsForest chain ns) = specPrunedForest chain ns) ∧
      walkerTextsForest chain (processForest chain ns) =
        (walkerTextsForest chain ns).map (fun e => (e.1, newTextValue (some e.1) e.2)) :=
  fun chain ns =>
    ⟨fun h => accepted_eq_pruned_forest chain ns h, walkerTexts_processForest chain ns⟩

/-- Witness for C6 amended, at the SCRIPT example under an empty chain. -/
theorem scanner_filter_amended_witness :
    acceptedTexts (walkerTextsForest [] scriptExample) =
      specPrunedForest [] scriptExample :=
  (scanner_filter_amended [] scriptExample).1 (by decide)

/-- C7: benign absences. A missing or empty payload makes the processor
return with no effect; the exemption check on a null element is false; a
detached text unit reached directly is still processed. -/
theorem benign_absence_noop :
    isExcludedElement none = false ∧
    (∀ parent : Option (List ElemData), replaceInTextNode parent none = none) ∧
    (∀ parent : Option (List ElemData), replaceInTextNode parent (some "") = none) ∧
    processSubtree none (.text (some "balaklava")) = .text (some "baklava") := by
  refine ⟨rfl, fun parent => ?_, fun parent => ?_, ?_⟩
  · cases hx : isExcludedElement parent <;> simp [replaceInTextNode, hx]
  · cases hx : isExcludedElement parent <;> simp [replaceInTextNode, hx]
  · rfl

/-- C8: frame condition of the single-unit processor. The payload is
written only when substitute changes it: an unchanged result produces no
write at all, and any write stores exactly the substituted text, which
differs from the original. -/
theorem write_back_only_on_change :
    ∀ (parent : Option (List ElemData)) (v : String),
      (substitute v = v → replaceInTextNode parent (some v) = none) ∧
      (∀ w, replaceInTextNode parent (some v) = some w → w = substitute v ∧ w ≠ v) := by
  intro parent v
  constructor
  · intro h
    cases hx : isExcludedElement parent with
    | true => simp [replaceInTextNode, hx]
    | false => simp [replaceInTextNode, hx, h]
  · intro w hw
    simp only [replaceInTextNode] at hw
    split at hw
    next => exact absurd hw (by simp)
    next =>
      split at hw
      next => exact absurd hw (by simp)
      next =>
        split at hw
        next hne =>
          have hwv : substitute v = w := by simpa using hw
          exact ⟨hwv.symm, hwv ▸ (by simpa using hne)⟩
        next => exact absurd hw (by simp)

/-- Witness for C8 at a concrete unchanged payload. -/
theorem write_back_only_on_change_witness :
    replaceInTextNode none (some "hello there") = none :=
  (write_back_only_on_change none "hello there").1 (by decide)

